import Mathlib

/-!
# Verification of the Vault Search Pro two-phase search engine

Shallow embedding of the search engine implemented in `content.js`
(matchers, fuzzy similarity, the recursive match traverser, and the
two-phase `universalSearch` orchestrator), together with theorems that
settle the specification claims about it.

JavaScript strings are modelled by Lean `String` (one `Char` per code
point), JS `Set`/`Map` by lists with explicit membership/update
functions, and the JS event loop by a small-step transition system in
which each synchronous block between two `await` suspension points is
one atomic step.
-/

namespace VaultSearch

/-! ## String primitives (models of the JS built-ins used by content.js) -/

/-- Model of JS `String.prototype.toLowerCase` (ASCII letters, which is
what `Char.toLower` handles and what the search terms exercise). -/
def jsToLower (s : String) : String := ⟨s.data.map Char.toLower⟩

/-- Helper for `jsIncludes`: does `pat` occur (contiguously) in the
haystack? Mirrors the semantics of JS `String.prototype.includes`. -/
def listIncludes (pat : List Char) : List Char → Bool
  | [] => pat.isPrefixOf []
  | c :: rest => pat.isPrefixOf (c :: rest) || listIncludes pat rest

/-- Model of JS `s.includes(sub)`. -/
def jsIncludes (s sub : String) : Bool := listIncludes sub.data s.data

/-- Model of JS `s.startsWith(sub)`. -/
def jsStartsWith (s sub : String) : Bool := sub.data.isPrefixOf s.data

/-- Model of JS `s.endsWith(sub)`. -/
def jsEndsWith (s sub : String) : Bool := sub.data.isSuffixOf s.data

/-! ## Fuzzy similarity (content.js `fuzzyRatio`, lines 12-20) -/

/-- The set of bigrams of a string: all length-2 substrings, as a set
(JS builds `new Set([...s].map((_, i) => s.slice(i, i + 2)).filter(t =>
t.length === 2))`). -/
def bigrams (s : String) : Finset (Char × Char) :=
  ((List.range s.data.length).filterMap fun i =>
    match s.data.drop i with
    | a :: b :: _ => some (a, b)
    | _ => none).toFinset

/-- `fuzzyRatio(a, b)` from content.js: lowercase both sides, return 0 if
either is empty, otherwise `2 * |xb ∩ yb| / (|xb| + |yb| || 1)`. -/
def fuzzyRatio (a b : String) : ℚ :=
  let x := jsToLower a
  let y := jsToLower b
  if x = "" ∨ y = "" then 0
  else
    let xb := bigrams x
    let yb := bigrams y
    let inter : ℕ := (xb ∩ yb).card
    (2 * inter : ℚ) / (if xb.card + yb.card = 0 then (1 : ℚ) else ((xb.card + yb.card : ℕ) : ℚ))

/-- The Dice coefficient over bigram sets exactly as the specification
words it: `2·|A ∩ B| / (|A| + |B|)` with an empty-denominator guard
returning 0.  (Spec-side definition, for comparison with `fuzzyRatio`.) -/
def diceSimilaritySpec (a b : String) : ℚ :=
  let A := bigrams (jsToLower a)
  let B := bigrams (jsToLower b)
  if A.card + B.card = 0 then 0
  else 2 * ((A ∩ B).card : ℚ) / ((A.card + B.card : ℕ) : ℚ)

/-! ## Matcher (content.js `matchText`, lines 21-30) -/

/-- A regex engine models the JS `new RegExp(pattern, flags)` builtin:
given the pattern and the case-insensitive flag it either returns a test
function or `none` (= the `RegExp` constructor threw on a malformed
pattern). -/
def RegexEngine : Type := String → Bool → Option (String → Bool)

/-- The option bag passed to `matchText` (mode is a raw string in JS,
so unknown modes are representable). -/
structure MatchOpts where
  mode : String
  similarity : ℚ
  caseInsensitive : Bool

/-- `matchText(text, pattern, {mode, similarity, caseInsensitive})` from
content.js.  The `try { new RegExp(...) } catch { return false }` of the
regex branch is modelled by the `Option` result of the engine. -/
def matchText (rx : RegexEngine) (text pat : String) (o : MatchOpts) : Bool :=
  if pat = "" then false
  else
    let T := if o.caseInsensitive then jsToLower text else text
    let P := if o.caseInsensitive then jsToLower pat else pat
    if o.mode = "exact" then T == P
    else if o.mode = "contains" then jsIncludes T P
    else if o.mode = "regex" then
      match rx pat o.caseInsensitive with
      | some tst => tst text
      | none => false
    else if o.mode = "fuzzy" then decide (fuzzyRatio T P ≥ o.similarity)
    else false

/-- A degenerate regex engine on which every pattern fails to compile. -/
def noRegex : RegexEngine := fun _ _ => none

/-- Are the parentheses of a pattern balanced?  Used by
`simpleRegexEngine` to decide whether the pattern "compiles". -/
def balancedParens (s : String) : Bool :=
  (s.data.foldl (fun acc c =>
    match acc with
    | none => none
    | some d => if c = '(' then some (d + 1) else if c = ')' then (if d = 0 then none else some (d - 1)) else some d)
    (some 0)) == some 0

/-- A small concrete regex engine: patterns with unbalanced parentheses
fail to compile (as `new RegExp("(")` throws), balanced ones test by
substring containment. -/
def simpleRegexEngine : RegexEngine := fun pat ci =>
  if balancedParens pat then
    some (fun text =>
      if ci then jsIncludes (jsToLower text) (jsToLower pat) else jsIncludes text pat)
  else none


/-! ## Lemmas about the string primitives -/

theorem listIncludes_iff (pat hay : List Char) :
    listIncludes pat hay = true ↔ pat <:+: hay := by
  induction hay with
  | nil => simp [listIncludes]
  | cons c rest ih => simp [listIncludes, ih, List.infix_cons_iff]

theorem jsIncludes_iff (s sub : String) :
    jsIncludes s sub = true ↔ sub.data <:+: s.data := listIncludes_iff _ _

theorem char_toNat_ofNat_valid {m : Nat} (h : m.isValidChar) :
    (Char.ofNat m).toNat = m := by
  rw [Char.ofNat, dif_pos h]; rfl

theorem char_toLower_toLower (c : Char) : c.toLower.toLower = c.toLower := by
  by_cases h : c.toNat ≥ 65 ∧ c.toNat ≤ 90
  · have h1 : c.toLower = Char.ofNat (c.toNat + 32) := by
      unfold Char.toLower; rw [if_pos h]
    have hv : (Char.ofNat (c.toNat + 32)).toNat = c.toNat + 32 :=
      char_toNat_ofNat_valid (Or.inl (by omega))
    rw [h1]
    unfold Char.toLower
    simp only [hv]
    rw [if_neg (by omega)]
  · have h1 : c.toLower = c := by unfold Char.toLower; rw [if_neg h]
    rw [h1, h1]

theorem jsToLower_idem (s : String) : jsToLower (jsToLower s) = jsToLower s := by
  simp [jsToLower, List.map_map, Function.comp_def, char_toLower_toLower]

theorem jsToLower_empty_iff (s : String) : jsToLower s = "" ↔ s = "" := by
  constructor
  · intro h
    have : s.data.map Char.toLower = [] := congrArg String.data h
    have : s.data = [] := by simpa using this
    exact congrArg String.mk this
  · intro h; rw [h]; rfl

/-! ## Fuzzy similarity facts (claim C9) -/

theorem bigrams_empty : bigrams "" = ∅ := rfl

theorem fuzzyRatio_eq_dice (a b : String) :
    fuzzyRatio a b = diceSimilaritySpec a b := by
  simp only [fuzzyRatio, diceSimilaritySpec]
  by_cases hx : jsToLower a = ""
  · rw [if_pos (Or.inl hx), hx, bigrams_empty]
    simp [Finset.empty_inter]
  · by_cases hy : jsToLower b = ""
    · rw [if_pos (Or.inr hy), hy, bigrams_empty]
      simp [Finset.inter_empty]
    · rw [if_neg (by push_neg; exact ⟨hx, hy⟩)]
      by_cases hs : (bigrams (jsToLower a)).card + (bigrams (jsToLower b)).card = 0
      · rw [if_pos hs, if_pos hs]
        have hinter : (bigrams (jsToLower a) ∩ bigrams (jsToLower b)).card = 0 := by
          have hsub : bigrams (jsToLower a) ∩ bigrams (jsToLower b) ⊆ bigrams (jsToLower a) :=
            Finset.inter_subset_left
          have := Finset.card_le_card hsub
          omega
        rw [hinter]
        norm_num
      · rw [if_neg hs, if_neg hs]

theorem fuzzyRatio_comm (a b : String) : fuzzyRatio a b = fuzzyRatio b a := by
  rw [fuzzyRatio_eq_dice, fuzzyRatio_eq_dice]
  simp only [diceSimilaritySpec]
  rw [Finset.inter_comm, Nat.add_comm]

theorem fuzzyRatio_empty_right (a : String) : fuzzyRatio a "" = 0 := by
  simp only [fuzzyRatio]
  have h : (jsToLower a = "" ∨ jsToLower "" = "") := Or.inr rfl
  rw [if_pos h]

/-- Claim C9: fuzzy similarity is the Dice coefficient over bigram sets
(with the empty-denominator guard returning 0), it is symmetric, and for
any positive threshold - in particular the default 0.8 - fuzzy-mode
matching succeeds iff the similarity is at least the threshold. -/
theorem fuzzy_similarity_spec :
    (∀ a b, fuzzyRatio a b = diceSimilaritySpec a b) ∧
    (∀ a b, fuzzyRatio a b = fuzzyRatio b a) ∧
    (∀ (rx : RegexEngine) (text pat : String) (ci : Bool) (θ : ℚ), 0 < θ →
      matchText rx text pat ⟨"fuzzy", θ, ci⟩ = decide (fuzzyRatio text pat ≥ θ)) := by
  refine ⟨fuzzyRatio_eq_dice, fuzzyRatio_comm, ?_⟩
  intro rx text pat ci θ hθ
  by_cases hp : pat = ""
  · subst hp
    rw [fuzzyRatio_empty_right, decide_eq_false (not_le.mpr hθ)]
    simp [matchText]
  · simp only [matchText]
    rw [if_neg hp]
    rw [if_neg (show ¬("fuzzy" : String) = "exact" from by decide)]
    rw [if_neg (show ¬("fuzzy" : String) = "contains" from by decide)]
    rw [if_neg (show ¬("fuzzy" : String) = "regex" from by decide)]
    rw [if_pos trivial]
    have harg : fuzzyRatio (if ci = true then jsToLower text else text)
        (if ci = true then jsToLower pat else pat) = fuzzyRatio text pat := by
      cases ci
      · rfl
      · show fuzzyRatio (jsToLower text) (jsToLower pat) = fuzzyRatio text pat
        simp only [fuzzyRatio, jsToLower_idem]
    rw [harg]


/-! ## Matcher laws (claims C3, C8) -/

/-- Claim C3 is false as stated: at `T = ""`, `P = ""` the exact-mode law
`matches(T, P, exact, false) = true iff T === P` fails, because the
empty-pattern guard returns false while `"" === ""` holds. -/
theorem matcher_laws_cx :
    ¬ ((matchText noRegex "" "" ⟨"exact", 4/5, false⟩ = true) ↔ ("" : String) = "") := by
  decide

/-- Claim C3 (amended): for NONEMPTY patterns, exact mode (case flag off)
is string equality and contains mode is substring occurrence; the empty
pattern yields false for every mode (exact, contains, regex, fuzzy, and
unknown modes alike). -/
theorem matcher_laws :
    (∀ (rx : RegexEngine) (T P : String) (θ : ℚ), P ≠ "" →
      (matchText rx T P ⟨"exact", θ, false⟩ = true ↔ T = P)) ∧
    (∀ (rx : RegexEngine) (T P : String) (θ : ℚ), P ≠ "" →
      (matchText rx T P ⟨"contains", θ, false⟩ = true ↔ P.data <:+: T.data)) ∧
    (∀ (rx : RegexEngine) (T mode : String) (θ : ℚ) (ci : Bool),
      matchText rx T "" ⟨mode, θ, ci⟩ = false) := by
  refine ⟨?_, ?_, ?_⟩
  · intro rx T P θ hP
    simp only [matchText]
    rw [if_neg hP, if_pos trivial]
    simp
  · intro rx T P θ hP
    simp only [matchText]
    rw [if_neg hP]
    rw [if_neg (show ¬("contains" : String) = "exact" from by decide)]
    rw [if_pos trivial]
    exact jsIncludes_iff T P
  · intro rx T mode θ ci
    simp [matchText]

/-- Witness for the amended C3 at concrete inputs. -/
theorem matcher_laws_witness :
    (matchText noRegex "abc" "abc" ⟨"exact", 4/5, false⟩ = true ↔ ("abc" : String) = "abc") ∧
    (matchText noRegex "abc" "b" ⟨"contains", 4/5, false⟩ = true ↔ ("b" : String).data <:+: ("abc" : String).data) :=
  ⟨matcher_laws.1 noRegex "abc" "abc" (4/5) (by decide),
   matcher_laws.2.1 noRegex "abc" "b" (4/5) (by decide)⟩

/-- Claim C8: when the pattern fails to compile as a regular expression,
`matchText` in regex mode returns false for every input of that call,
and (being a total function) never propagates an error. -/
theorem regex_compile_failure_no_match (rx : RegexEngine) (text pat : String)
    (θ : ℚ) (ci : Bool) (h : rx pat ci = none) :
    matchText rx text pat ⟨"regex", θ, ci⟩ = false := by
  by_cases hp : pat = ""
  · subst hp; simp [matchText]
  · simp only [matchText]
    rw [if_neg hp]
    rw [if_neg (show ¬("regex" : String) = "exact" from by decide)]
    rw [if_neg (show ¬("regex" : String) = "contains" from by decide)]
    rw [if_pos trivial, h]

/-- Witness for C8: the concrete pattern `"("` fails to compile on the
concrete engine, and matching returns false. -/
theorem regex_compile_failure_no_match_witness :
    simpleRegexEngine "(" false = none ∧
    matchText simpleRegexEngine "any text" "(" ⟨"regex", 4/5, false⟩ = false :=
  ⟨rfl, regex_compile_failure_no_match simpleRegexEngine "any text" "(" (4/5) false rfl⟩

/-- Witness for C9's threshold clause at concrete inputs. -/
theorem fuzzy_similarity_spec_witness :
    (0 : ℚ) < 4/5 ∧
    matchText noRegex "hello" "hello" ⟨"fuzzy", 4/5, true⟩ = decide (fuzzyRatio "hello" "hello" ≥ 4/5) :=
  ⟨by norm_num, fuzzy_similarity_spec.2.2 noRegex "hello" "hello" true (4/5) (by norm_num)⟩


/-! ## JSON values and the match traverser (content.js `traverseForMatches`,
lines 166-188) -/

mutual
/-- JSON-like values as read from a secret.  Scalars (strings, numbers,
booleans and null - i.e. every JS value with `typeof v !== 'object' ||
v === null`) are represented by their JS string form `String(v)`, which
is all the traverser ever inspects. -/
inductive JSON where
  | prim (s : String)
  | arr (items : JArr)
  | obj (fields : JObj)
deriving DecidableEq, Repr
/-- A JS array of JSON values (in element order). -/
inductive JArr where
  | nil
  | cons (hd : JSON) (tl : JArr)
deriving DecidableEq, Repr
/-- The fields of a JS object (in `Object.entries` insertion order). -/
inductive JObj where
  | nil
  | cons (k : String) (v : JSON) (tl : JObj)
deriving DecidableEq, Repr
end

/-- One `{ jsonPath, value }` record pushed into `keyMatches` or
`valueMatches`. -/
structure MatchEntry where
  jsonPath : String
  value : JSON
deriving DecidableEq, Repr

mutual

/-- `traverseForMatches(data, term, opts, maxDepth, keyMatches,
valueMatches, jsonPath, depth)`: returns the pair of lists
(keyMatches, valueMatches) that the JS code accumulates into its two
output arrays, in push order. -/
def traverseForMatches (rx : RegexEngine) (term : String) (o : MatchOpts)
    (maxDepth : Nat) : JSON → String → Nat → List MatchEntry × List MatchEntry
  | data, jsonPath, depth =>
    if depth > maxDepth then ([], [])
    else
      match data with
      | .prim _ => ([], [])
      | .obj fields => travObj rx term o maxDepth fields jsonPath depth
      | .arr items => travArr rx term o maxDepth items 0 jsonPath depth

/-- The `for (const [k, v] of Object.entries(data))` loop. -/
def travObj (rx : RegexEngine) (term : String) (o : MatchOpts) (maxDepth : Nat) :
    JObj → String → Nat → List MatchEntry × List MatchEntry
  | .nil, _, _ => ([], [])
  | .cons k v rest, jsonPath, depth =>
    let np := if jsonPath = "" then k else jsonPath ++ "." ++ k
    let keyHit : List MatchEntry :=
      if matchText rx k term o then [⟨np, v⟩] else []
    let sub : List MatchEntry × List MatchEntry :=
      match v with
      | .prim s => ([], if matchText rx s term o then [⟨np, .prim s⟩] else [])
      | .arr items => traverseForMatches rx term o maxDepth (.arr items) np (depth + 1)
      | .obj fields => traverseForMatches rx term o maxDepth (.obj fields) np (depth + 1)
    let rest' := travObj rx term o maxDepth rest jsonPath depth
    (keyHit ++ sub.1 ++ rest'.1, sub.2 ++ rest'.2)

/-- The `data.forEach((item, i) => ...)` loop (index threaded). -/
def travArr (rx : RegexEngine) (term : String) (o : MatchOpts) (maxDepth : Nat) :
    JArr → Nat → String → Nat → List MatchEntry × List MatchEntry
  | .nil, _, _, _ => ([], [])
  | .cons item rest, i, jsonPath, depth =>
    let np := jsonPath ++ "[" ++ toString i ++ "]"
    let sub : List MatchEntry × List MatchEntry :=
      match item with
      | .prim s => ([], if matchText rx s term o then [⟨np, .prim s⟩] else [])
      | .arr items => traverseForMatches rx term o maxDepth (.arr items) np (depth + 1)
      | .obj fields => traverseForMatches rx term o maxDepth (.obj fields) np (depth + 1)
    let rest' := travArr rx term o maxDepth rest (i + 1) jsonPath depth
    (sub.1 ++ rest'.1, sub.2 ++ rest'.2)

end


/-! ## Traverser facts (claim C6) -/

theorem traverse_depth_exceeded (rx : RegexEngine) (term : String) (o : MatchOpts)
    (maxDepth : Nat) (j : JSON) (p : String) (depth : Nat) (h : depth > maxDepth) :
    traverseForMatches rx term o maxDepth j p depth = ([], []) := by
  cases j <;> simp [traverseForMatches, h]

theorem traverse_prim_eq (rx : RegexEngine) (term : String) (o : MatchOpts)
    (md : Nat) (s : String) (p : String) (depth : Nat) :
    traverseForMatches rx term o md (.prim s) p depth = ([], []) := by
  by_cases h : depth > md <;> simp [traverseForMatches, h]

theorem traverse_arr_eq (rx : RegexEngine) (term : String) (o : MatchOpts)
    (md : Nat) (items : JArr) (p : String) (depth : Nat) :
    traverseForMatches rx term o md (.arr items) p depth
      = if depth > md then ([], []) else travArr rx term o md items 0 p depth := by
  by_cases h : depth > md <;> simp [traverseForMatches, h]

theorem traverse_obj_eq (rx : RegexEngine) (term : String) (o : MatchOpts)
    (md : Nat) (fields : JObj) (p : String) (depth : Nat) :
    traverseForMatches rx term o md (.obj fields) p depth
      = if depth > md then ([], []) else travObj rx term o md fields p depth := by
  by_cases h : depth > md <;> simp [traverseForMatches, h]

mutual

theorem travObj_mono (rx : RegexEngine) (term : String) (o : MatchOpts)
    (d d' : Nat) (h : d ≤ d') :
    ∀ (fs : JObj) (p : String) (depth : Nat),
      List.Sublist (travObj rx term o d fs p depth).1 (travObj rx term o d' fs p depth).1 ∧
      List.Sublist (travObj rx term o d fs p depth).2 (travObj rx term o d' fs p depth).2
  | .nil, p, depth => by simp [travObj]
  | .cons k (.prim s) rest, p, depth => by
    have hrest := travObj_mono rx term o d d' h rest p depth
    simp only [travObj]
    exact ⟨List.Sublist.append (List.Sublist.refl _) hrest.1,
           List.Sublist.append (List.Sublist.refl _) hrest.2⟩
  | .cons k (.arr items) rest, p, depth => by
    have hrest := travObj_mono rx term o d d' h rest p depth
    have hsub : List.Sublist
        (traverseForMatches rx term o d (.arr items) (if p = "" then k else p ++ "." ++ k) (depth + 1)).1
        (traverseForMatches rx term o d' (.arr items) (if p = "" then k else p ++ "." ++ k) (depth + 1)).1 ∧
        List.Sublist
        (traverseForMatches rx term o d (.arr items) (if p = "" then k else p ++ "." ++ k) (depth + 1)).2
        (traverseForMatches rx term o d' (.arr items) (if p = "" then k else p ++ "." ++ k) (depth + 1)).2 := by
      rw [traverse_arr_eq, traverse_arr_eq]
      by_cases hd : depth + 1 > d
      · rw [if_pos hd]
        exact ⟨List.nil_sublist _, List.nil_sublist _⟩
      · rw [if_neg hd, if_neg (show ¬ depth + 1 > d' by omega)]
        exact travArr_mono rx term o d d' h items 0 (if p = "" then k else p ++ "." ++ k) (depth + 1)
    simp only [travObj]
    exact ⟨List.Sublist.append (List.Sublist.append (List.Sublist.refl _) hsub.1) hrest.1,
           List.Sublist.append hsub.2 hrest.2⟩
  | .cons k (.obj fields) rest, p, depth => by
    have hrest := travObj_mono rx term o d d' h rest p depth
    have hsub : List.Sublist
        (traverseForMatches rx term o d (.obj fields) (if p = "" then k else p ++ "." ++ k) (depth + 1)).1
        (traverseForMatches rx term o d' (.obj fields) (if p = "" then k else p ++ "." ++ k) (depth + 1)).1 ∧
        List.Sublist
        (traverseForMatches rx term o d (.obj fields) (if p = "" then k else p ++ "." ++ k) (depth + 1)).2
        (traverseForMatches rx term o d' (.obj fields) (if p = "" then k else p ++ "." ++ k) (depth + 1)).2 := by
      rw [traverse_obj_eq, traverse_obj_eq]
      by_cases hd : depth + 1 > d
      · rw [if_pos hd]
        exact ⟨List.nil_sublist _, List.nil_sublist _⟩
      · rw [if_neg hd, if_neg (show ¬ depth + 1 > d' by omega)]
        exact travObj_mono rx term o d d' h fields (if p = "" then k else p ++ "." ++ k) (depth + 1)
    simp only [travObj]
    exact ⟨List.Sublist.append (List.Sublist.append (List.Sublist.refl _) hsub.1) hrest.1,
           List.Sublist.append hsub.2 hrest.2⟩

theorem travArr_mono (rx : RegexEngine) (term : String) (o : MatchOpts)
    (d d' : Nat) (h : d ≤ d') :
    ∀ (xs : JArr) (i : Nat) (p : String) (depth : Nat),
      List.Sublist (travArr rx term o d xs i p depth).1 (travArr rx term o d' xs i p depth).1 ∧
      List.Sublist (travArr rx term o d xs i p depth).2 (travArr rx term o d' xs i p depth).2
  | .nil, i, p, depth => by simp [travArr]
  | .cons (.prim s) rest, i, p, depth => by
    have hrest := travArr_mono rx term o d d' h rest (i + 1) p depth
    simp only [travArr]
    exact ⟨List.Sublist.append (List.Sublist.refl _) hrest.1,
           List.Sublist.append (List.Sublist.refl _) hrest.2⟩
  | .cons (.arr items) rest, i, p, depth => by
    have hrest := travArr_mono rx term o d d' h rest (i + 1) p depth
    have hsub : List.Sublist
        (traverseForMatches rx term o d (.arr items) (p ++ "[" ++ toString i ++ "]") (depth + 1)).1
        (traverseForMatches rx term o d' (.arr items) (p ++ "[" ++ toString i ++ "]") (depth + 1)).1 ∧
        List.Sublist
        (traverseForMatches rx term o d (.arr items) (p ++ "[" ++ toString i ++ "]") (depth + 1)).2
        (traverseForMatches rx term o d' (.arr items) (p ++ "[" ++ toString i ++ "]") (depth + 1)).2 := by
      rw [traverse_arr_eq, traverse_arr_eq]
      by_cases hd : depth + 1 > d
      · rw [if_pos hd]
        exact ⟨List.nil_sublist _, List.nil_sublist _⟩
      · rw [if_neg hd, if_neg (show ¬ depth + 1 > d' by omega)]
        exact travArr_mono rx term o d d' h items 0 (p ++ "[" ++ toString i ++ "]") (depth + 1)
    simp only [travArr]
    exact ⟨List.Sublist.append hsub.1 hrest.1, List.Sublist.append hsub.2 hrest.2⟩
  | .cons (.obj fields) rest, i, p, depth => by
    have hrest := travArr_mono rx term o d d' h rest (i + 1) p depth
    have hsub : List.Sublist
        (traverseForMatches rx term o d (.obj fields) (p ++ "[" ++ toString i ++ "]") (depth + 1)).1
        (traverseForMatches rx term o d' (.obj fields) (p ++ "[" ++ toString i ++ "]") (depth + 1)).1 ∧
        List.Sublist
        (traverseForMatches rx term o d (.obj fields) (p ++ "[" ++ toString i ++ "]") (depth + 1)).2
        (traverseForMatches rx term o d' (.obj fields) (p ++ "[" ++ toString i ++ "]") (depth + 1)).2 := by
      rw [traverse_obj_eq, traverse_obj_eq]
      by_cases hd : depth + 1 > d
      · rw [if_pos hd]
        exact ⟨List.nil_sublist _, List.nil_sublist _⟩
      · rw [if_neg hd, if_neg (show ¬ depth + 1 > d' by omega)]
        exact travObj_mono rx term o d d' h fields (p ++ "[" ++ toString i ++ "]") (depth + 1)
    simp only [travArr]
    exact ⟨List.Sublist.append hsub.1 hrest.1, List.Sublist.append hsub.2 hrest.2⟩

end

theorem traverse_mono (rx : RegexEngine) (term : String) (o : MatchOpts)
    (d d' : Nat) (h : d ≤ d') (j : JSON) (p : String) (depth : Nat) :
    List.Sublist (traverseForMatches rx term o d j p depth).1
      (traverseForMatches rx term o d' j p depth).1 ∧
    List.Sublist (traverseForMatches rx term o d j p depth).2
      (traverseForMatches rx term o d' j p depth).2 := by
  cases j with
  | prim s => rw [traverse_prim_eq, traverse_prim_eq]; exact ⟨List.Sublist.refl _, List.Sublist.refl _⟩
  | arr items =>
    rw [traverse_arr_eq, traverse_arr_eq]
    by_cases hd : depth > d
    · rw [if_pos hd]
      exact ⟨List.nil_sublist _, List.nil_sublist _⟩
    · rw [if_neg hd, if_neg (show ¬ depth > d' by omega)]
      exact travArr_mono rx term o d d' h items 0 p depth
  | obj fields =>
    rw [traverse_obj_eq, traverse_obj_eq]
    by_cases hd : depth > d
    · rw [if_pos hd]
      exact ⟨List.nil_sublist _, List.nil_sublist _⟩
    · rw [if_neg hd, if_neg (show ¬ depth > d' by omega)]
      exact travObj_mono rx term o d d' h fields p depth

/-- Claim C6: the traverser returns immediately (recording nothing) once
`depth > maxDepth`, and for a fixed input increasing `maxDepth` only ever
adds matches - the match lists for the smaller bound are sublists of
those for the larger bound. -/
theorem traverser_depth_bound_and_monotone :
    (∀ (rx : RegexEngine) (term : String) (o : MatchOpts) (maxDepth : Nat)
        (j : JSON) (p : String) (depth : Nat), depth > maxDepth →
        traverseForMatches rx term o maxDepth j p depth = ([], [])) ∧
    (∀ (rx : RegexEngine) (term : String) (o : MatchOpts) (d d' : Nat), d ≤ d' →
      ∀ (j : JSON) (p : String) (depth : Nat),
        List.Sublist (traverseForMatches rx term o d j p depth).1
          (traverseForMatches rx term o d' j p depth).1 ∧
        List.Sublist (traverseForMatches rx term o d j p depth).2
          (traverseForMatches rx term o d' j p depth).2) :=
  ⟨fun rx term o maxDepth j p depth h => traverse_depth_exceeded rx term o maxDepth j p depth h,
   fun rx term o d d' h j p depth => traverse_mono rx term o d d' h j p depth⟩

/-- The nested secret `{"a": {"b": {"c": "password"}}}` of the spec's
scenario 4. -/
def nestedSecret : JSON :=
  JSON.obj (.cons "a" (.obj (.cons "b" (.obj (.cons "c" (.prim "password") .nil)) .nil)) .nil)

/-- Witness for C6 at scenario 4's secret: depth 11 with bound 10 yields
nothing, and the bound-1 match lists are sublists of the bound-3 ones. -/
theorem traverser_depth_bound_witness :
    traverseForMatches noRegex "password" ⟨"contains", 4/5, true⟩ 10 nestedSecret "x" 11 = ([], []) ∧
    List.Sublist (traverseForMatches noRegex "password" ⟨"contains", 4/5, true⟩ 1 nestedSecret "" 0).2
      (traverseForMatches noRegex "password" ⟨"contains", 4/5, true⟩ 3 nestedSecret "" 0).2 :=
  ⟨traverser_depth_bound_and_monotone.1 noRegex "password" ⟨"contains", 4/5, true⟩ 10
      nestedSecret "x" 11 (by decide),
   (traverser_depth_bound_and_monotone.2 noRegex "password" ⟨"contains", 4/5, true⟩ 1 3
      (by decide) nestedSecret "" 0).2⟩


/-! ## Secondary data of a search result (content.js `flattenAll`,
`encodeURIComponent`, URL building) -/

/-- One `{ path, value }` item produced by `flattenAll`. -/
structure FlatItem where
  path : String
  value : JSON
deriving DecidableEq, Repr

mutual
/-- `flattenAll(data, prefix)` from content.js: flatten every scalar leaf
with its dotted/bracketed path. -/
def flattenAll : JSON → String → List FlatItem
  | .prim s, pth => [⟨pth, .prim s⟩]
  | .obj fields, pth => flatObj fields pth
  | .arr items, pth => flatArr items 0 pth
def flatObj : JObj → String → List FlatItem
  | .nil, _ => []
  | .cons k v rest, pth =>
    flattenAll v (if pth = "" then k else pth ++ "." ++ k) ++ flatObj rest pth
def flatArr : JArr → Nat → String → List FlatItem
  | .nil, _, _ => []
  | .cons item rest, i, pth =>
    flattenAll item (pth ++ "[" ++ toString i ++ "]") ++ flatArr rest (i + 1) pth
end

/-- Hexadecimal digit for `encodeURIComponent`. -/
def hexDigit (n : Nat) : Char := "0123456789ABCDEF".data.getD n '0'

/-- The characters `encodeURIComponent` leaves unescaped. -/
def isUnreservedURIChar (c : Char) : Bool :=
  c.isAlphanum || c = '-' || c = '_' || c = '.' || c = '!' || c = '~'
    || c = '*' || c = Char.ofNat 39 || c = '(' || c = ')'

/-- UTF-8 bytes of one code point. -/
def utf8Bytes (c : Char) : List Nat :=
  let n := c.toNat
  if n < 0x80 then [n]
  else if n < 0x800 then [0xC0 + n / 64, 0x80 + n % 64]
  else if n < 0x10000 then [0xE0 + n / 4096, 0x80 + (n / 64) % 64, 0x80 + n % 64]
  else [0xF0 + n / 262144, 0x80 + (n / 4096) % 64, 0x80 + (n / 64) % 64, 0x80 + n % 64]

/-- Model of the JS `encodeURIComponent` builtin. -/
def encodeURIComponent (s : String) : String :=
  ⟨s.data.foldr (fun c acc =>
    if isUnreservedURIChar c then c :: acc
    else (utf8Bytes c).foldr (fun b acc2 => '%' :: hexDigit (b / 16) :: hexDigit (b % 16) :: acc2) acc) []⟩

/-- `mount.replace(/\/$/, '')`: drop a single trailing slash. -/
def stripTrailingSlash (s : String) : String :=
  if jsEndsWith s "/" then ⟨s.data.dropLast⟩ else s

/-! ## The two-phase search orchestrator (content.js `universalSearch`,
lines 191-261), embedded as a small-step transition system.

Each step is one synchronous block of a `listWorker`/`readWorker`
between two `await` suspension points (JS blocks between suspension
points run atomically on the single-threaded event loop).  The
scheduler - which worker runs next, what each network call returns, and
when the abort signal fires - is the environment's choice, encoded in
the `Action` list of a run. -/

/-- A Phase-A output record (`pathCandidates` element / `"path"` yield). -/
structure Candidate where
  mount : String
  kv2 : Bool
  path : String
  fullPath : String
deriving DecidableEq, Repr

/-- A Phase-B output record (`results` element / `"deep"` yield). -/
structure SearchResult where
  mount : String
  path : String
  fullPath : String
  kv2 : Bool
  vaultUrl : String
  pathMatches : List String
  keyMatches : List MatchEntry
  valueMatches : List MatchEntry
  allData : Option (List FlatItem)
deriving DecidableEq, Repr

/-- One record handed to the `onYield` streaming callback. -/
inductive Event where
  | path (c : Candidate)
  | deep (r : SearchResult)
deriving DecidableEq, Repr

/-- A network call issued by a worker (list or read, with the KV-version
flag the URL was built from). -/
inductive Call where
  | list (mount pfx : String) (kv2 : Bool)
  | read (c : Candidate)
deriving DecidableEq, Repr

/-- What a worker is doing: at its loop top, awaiting a list call,
awaiting a read call, or returned. -/
inductive WStatus where
  | idle
  | listing (mount pfx : String) (kv2 : Bool)
  | reading (c : Candidate)
  | done
deriving DecidableEq, Repr

/-- Which phase of `universalSearch` is running. -/
inductive Phase where
  | A
  | B
deriving DecidableEq, Repr

/-- Outcome of a `listKV` fetch, as distinguished by `listKV`'s handler
(`fetchJSON` throws `"<status> ..."`; anything that is neither a 404 nor
a 403 - other HTTP statuses, network failures, timeouts - rethrows and
is modelled by `netErr`). -/
inductive ListResp where
  | ok (keys : List String)
  | http404
  | http403
  | netErr
deriving DecidableEq, Repr

/-- Outcome of a `readKV` call (its internal v2-to-v1 404 retry
included): the final data, or a failure the worker catches. -/
inductive ReadResp where
  | ok (data : JSON)
  | err
deriving DecidableEq, Repr

/-- An environment/scheduler event: set the abort flag, let an idle
worker claim work, deliver a network response to an in-flight worker, or
observe that Phase A's `Promise.all` resolved (all workers returned) and
start Phase B. -/
inductive Action where
  | abort
  | claim (w : Nat)
  | listDone (w : Nat) (resp : ListResp)
  | readDone (w : Nat) (resp : ReadResp)
  | finishA
deriving DecidableEq, Repr

/-- The mutable state of one `universalSearch` invocation. -/
structure St where
  phase : Phase
  listQueue : List (String × String)
  kvMap : List (String × Bool)
  seen : List String
  cands : List Candidate
  readQueue : List Candidate
  results : List SearchResult
  emitted : List Event
  calls : List Call
  aborted : Bool
  workers : List WStatus
deriving DecidableEq, Repr

/-- The engine's configuration: the query and ambient parameters of one
`universalSearch` call. -/
structure Config where
  rx : RegexEngine
  base : String
  term : String
  opts : MatchOpts
  maxDepth : Nat
  showAll : Bool
  mFilter : String
  pFilter : String

/-- `applyMount`: `!mountFilter || m.mount.startsWith(mountFilter)`. -/
def mountAllowed (cfg : Config) (mount : String) : Bool :=
  cfg.mFilter == "" || jsStartsWith mount cfg.mFilter

/-- `applyPrefix`: `!prefixFilter || p.startsWith(prefixFilter)`. -/
def prefixAllowed (cfg : Config) (p : String) : Bool :=
  cfg.pFilter == "" || jsStartsWith p cfg.pFilter

/-- `fullPath.split('/').filter(Boolean)`. -/
def pathSegments (fullPath : String) : List String :=
  (fullPath.splitOn "/").filter (fun s => s ≠ "")

/-- Phase A's qualification test: the full path matches, or any single
`/`-delimited segment does. -/
def pathMatched (cfg : Config) (fullPath : String) : Bool :=
  matchText cfg.rx fullPath cfg.term cfg.opts ||
    (pathSegments fullPath).any (fun seg => matchText cfg.rx seg cfg.term cfg.opts)

/-- `kvVersionMap.set(mount, v)` (JS `Map.set`: overwrite in place or
append). -/
def mapSet (m : List (String × Bool)) (k : String) (v : Bool) : List (String × Bool) :=
  if m.any (fun p => p.1 == k) then m.map (fun p => if p.1 == k then (k, v) else p)
  else m ++ [(k, v)]

/-- The body of `for (const k of listed.keys)` in `listWorker`: directory
keys are re-enqueued, leaf keys are matched, deduplicated against the
global seen-set, appended to `pathCandidates` and streamed. -/
def processKey (cfg : Config) (mount pfx : String) (kv2 : Bool) (st : St) (k : String) : St :=
  if jsEndsWith k "/" then { st with listQueue := st.listQueue ++ [(mount, pfx ++ k)] }
  else
    let fullPath := mount ++ pfx ++ k
    if pathMatched cfg fullPath && !(st.seen.contains fullPath) then
      let c : Candidate := ⟨mount, kv2, pfx ++ k, fullPath⟩
      { st with seen := fullPath :: st.seen,
                cands := st.cands ++ [c],
                emitted := st.emitted ++ [Event.path c] }
    else st

/-- The whole key loop. -/
def processKeys (cfg : Config) (mount pfx : String) (kv2 : Bool)
    (keys : List String) (st : St) : St :=
  keys.foldl (processKey cfg mount pfx kv2) st

/-- `let data = {}; try { data = await readKV(...) } catch { ... }`. -/
def readRespData : ReadResp → JSON
  | .ok d => d
  | .err => .obj .nil

/-- The result record built by `readWorker` when a candidate's traversal
produced at least one match. -/
def mkSearchResult (cfg : Config) (c : Candidate) (data : JSON)
    (km vm : List MatchEntry) : SearchResult :=
  { mount := c.mount, path := c.path, fullPath := c.fullPath, kv2 := c.kv2,
    vaultUrl := cfg.base ++ "/ui/vault/secrets/" ++ stripTrailingSlash c.mount ++ "/kv/"
      ++ encodeURIComponent c.path,
    pathMatches := ["Full path: " ++ c.fullPath],
    keyMatches := km, valueMatches := vm,
    allData := if cfg.showAll then some (flattenAll data "") else none }

/-- One atomic step of the engine.  `none` means the action is not
enabled in this state (no such scheduler event can occur). -/
def step (cfg : Config) (a : Action) (st : St) : Option St :=
  match a with
  | .abort => some { st with aborted := true }
  | .finishA =>
    if st.phase = Phase.A ∧ ∀ ws ∈ st.workers, ws = WStatus.done then
      some { st with phase := Phase.B, readQueue := st.cands,
                     workers := st.workers.map (fun _ => WStatus.idle) }
    else none
  | .claim w =>
    match st.workers.get? w with
    | some WStatus.idle =>
      match st.phase with
      | Phase.A =>
        match st.listQueue with
        | [] => some { st with workers := st.workers.set w WStatus.done }
        | (mount, pfx) :: rest =>
          if st.aborted then some { st with workers := st.workers.set w WStatus.done }
          else if !(prefixAllowed cfg pfx) then some { st with listQueue := rest }
          else
            let kv2 := (st.kvMap.lookup mount).getD false
            some { st with listQueue := rest,
                           workers := st.workers.set w (WStatus.listing mount pfx kv2),
                           calls := st.calls ++ [Call.list mount pfx kv2] }
      | Phase.B =>
        match st.readQueue with
        | [] => some { st with workers := st.workers.set w WStatus.done }
        | c :: rest =>
          if st.aborted then some { st with workers := st.workers.set w WStatus.done }
          else some { st with readQueue := rest,
                              workers := st.workers.set w (WStatus.reading c),
                              calls := st.calls ++ [Call.read c] }
    | _ => none
  | .listDone w resp =>
    match st.workers.get? w with
    | some (WStatus.listing mount pfx kv2) =>
      let st' := { st with workers := st.workers.set w WStatus.idle }
      match resp with
      | .ok keys => some (processKeys cfg mount pfx kv2 keys st')
      | .http404 =>
        if kv2 then some { st' with kvMap := mapSet st'.kvMap mount false } else some st'
      | .http403 => some st'
      | .netErr => some st'
    | _ => none
  | .readDone w resp =>
    match st.workers.get? w with
    | some (WStatus.reading c) =>
      let st' := { st with workers := st.workers.set w WStatus.idle }
      let data := readRespData resp
      let mv := traverseForMatches cfg.rx cfg.term cfg.opts cfg.maxDepth data "" 0
      let recs := if 0 < mv.1.length + mv.2.length then [mkSearchResult cfg c data mv.1 mv.2] else []
      some { st' with results := st'.results ++ recs,
                      emitted := st'.emitted ++ recs.map Event.deep }
    | _ => none

/-- The state `universalSearch` starts from, given the discovered mounts
`(mount, kv2)` (after `listKVMounts`) and the worker-pool size. -/
def initSt (cfg : Config) (mounts : List (String × Bool)) (w : Nat) : St :=
  { phase := Phase.A
    listQueue := (mounts.filter (fun mi => mountAllowed cfg mi.1)).map (fun mi => (mi.1, ""))
    kvMap := mounts.foldl (fun m mi => mapSet m mi.1 mi.2) []
    seen := []
    cands := []
    readQueue := []
    results := []
    emitted := []
    calls := []
    aborted := false
    workers := List.replicate w WStatus.idle }

/-- Run a schedule of environment events from a state. -/
def runSearch (cfg : Config) (acts : List Action) (st : St) : Option St :=
  acts.foldlM (fun s a => step cfg a s) st

/-- The `"deep"` records of the yield stream, in emission order. -/
def deepRecs (es : List Event) : List SearchResult :=
  es.filterMap (fun e => match e with | .deep r => some r | .path _ => none)

/-- Is a call a list (Phase A) call? -/
def isListCall : Call → Bool
  | .list _ _ _ => true
  | .read _ => false

/-- Is a call a secret read (Phase B) call? -/
def isReadCall : Call → Bool
  | .list _ _ _ => false
  | .read _ => true


/-! ## Helper lemmas about the key-processing loop -/

theorem deepRecs_append (es fs : List Event) :
    deepRecs (es ++ fs) = deepRecs es ++ deepRecs fs := by
  simp [deepRecs, List.filterMap_append]

theorem deepRecs_map_deep (rs : List SearchResult) :
    deepRecs (rs.map Event.deep) = rs := by
  induction rs with
  | nil => rfl
  | cons r rs ih => simp [deepRecs, List.filterMap_cons] at ih ⊢; exact ih

theorem processKey_frozen (cfg : Config) (m pfx : String) (kv2 : Bool) (st : St) (k : String) :
    (processKey cfg m pfx kv2 st k).results = st.results ∧
    (processKey cfg m pfx kv2 st k).calls = st.calls ∧
    (processKey cfg m pfx kv2 st k).readQueue = st.readQueue ∧
    (processKey cfg m pfx kv2 st k).phase = st.phase ∧
    (processKey cfg m pfx kv2 st k).workers = st.workers ∧
    (processKey cfg m pfx kv2 st k).aborted = st.aborted ∧
    (processKey cfg m pfx kv2 st k).kvMap = st.kvMap := by
  simp only [processKey]
  split
  · simp
  · split
    · simp
    · simp

theorem processKeys_frozen (cfg : Config) (m pfx : String) (kv2 : Bool) :
    ∀ (keys : List String) (st : St),
    (processKeys cfg m pfx kv2 keys st).results = st.results ∧
    (processKeys cfg m pfx kv2 keys st).calls = st.calls ∧
    (processKeys cfg m pfx kv2 keys st).readQueue = st.readQueue ∧
    (processKeys cfg m pfx kv2 keys st).phase = st.phase ∧
    (processKeys cfg m pfx kv2 keys st).workers = st.workers ∧
    (processKeys cfg m pfx kv2 keys st).aborted = st.aborted ∧
    (processKeys cfg m pfx kv2 keys st).kvMap = st.kvMap
  | [], st => ⟨rfl, rfl, rfl, rfl, rfl, rfl, rfl⟩
  | k :: ks, st => by
    have h1 := processKey_frozen cfg m pfx kv2 st k
    have h2 := processKeys_frozen cfg m pfx kv2 ks (processKey cfg m pfx kv2 st k)
    simp only [processKeys, List.foldl_cons] at h2 ⊢
    exact ⟨h2.1.trans h1.1, h2.2.1.trans h1.2.1, h2.2.2.1.trans h1.2.2.1,
           h2.2.2.2.1.trans h1.2.2.2.1, h2.2.2.2.2.1.trans h1.2.2.2.2.1,
           h2.2.2.2.2.2.1.trans h1.2.2.2.2.2.1, h2.2.2.2.2.2.2.trans h1.2.2.2.2.2.2⟩

theorem processKey_emitted_deep (cfg : Config) (m pfx : String) (kv2 : Bool) (st : St) (k : String) :
    deepRecs (processKey cfg m pfx kv2 st k).emitted = deepRecs st.emitted := by
  simp only [processKey]
  split
  · simp
  · split
    · simp [deepRecs_append, deepRecs]
    · simp

theorem processKeys_emitted_deep (cfg : Config) (m pfx : String) (kv2 : Bool) :
    ∀ (keys : List String) (st : St),
    deepRecs (processKeys cfg m pfx kv2 keys st).emitted = deepRecs st.emitted
  | [], _ => rfl
  | k :: ks, st => by
    have h1 := processKey_emitted_deep cfg m pfx kv2 st k
    have h2 := processKeys_emitted_deep cfg m pfx kv2 ks (processKey cfg m pfx kv2 st k)
    simp only [processKeys, List.foldl_cons] at h2 ⊢
    exact h2.trans h1

theorem processKey_cands_grow (cfg : Config) (m pfx : String) (kv2 : Bool) (st : St) (k : String) :
    ∃ t, (processKey cfg m pfx kv2 st k).cands = st.cands ++ t := by
  simp only [processKey]
  split
  · exact ⟨[], by simp⟩
  · split
    · exact ⟨[⟨m, kv2, pfx ++ k, m ++ pfx ++ k⟩], by simp⟩
    · exact ⟨[], by simp⟩

theorem processKeys_cands_grow (cfg : Config) (m pfx : String) (kv2 : Bool) :
    ∀ (keys : List String) (st : St),
    ∃ t, (processKeys cfg m pfx kv2 keys st).cands = st.cands ++ t
  | [], st => ⟨[], by simp [processKeys]⟩
  | k :: ks, st => by
    obtain ⟨t1, h1⟩ := processKey_cands_grow cfg m pfx kv2 st k
    obtain ⟨t2, h2⟩ := processKeys_cands_grow cfg m pfx kv2 ks (processKey cfg m pfx kv2 st k)
    simp only [processKeys, List.foldl_cons] at h2 ⊢
    exact ⟨t1 ++ t2, by rw [h2, h1, List.append_assoc]⟩

theorem processKey_dedup (cfg : Config) (m pfx : String) (kv2 : Bool) (st : St) (k : String)
    (h1 : (st.cands.map Candidate.fullPath).Nodup)
    (h2 : ∀ c ∈ st.cands, c.fullPath ∈ st.seen) :
    ((processKey cfg m pfx kv2 st k).cands.map Candidate.fullPath).Nodup ∧
    ∀ c ∈ (processKey cfg m pfx kv2 st k).cands,
      c.fullPath ∈ (processKey cfg m pfx kv2 st k).seen := by
  simp only [processKey]
  split
  · exact ⟨h1, h2⟩
  · split
    · next hguard =>
      have hnotseen : ¬ (m ++ pfx ++ k) ∈ st.seen := by
        have hh := (Bool.and_eq_true _ _).mp hguard
        have hc := hh.2
        simp only [Bool.not_eq_true'] at hc
        intro hmem
        rw [show st.seen.contains (m ++ pfx ++ k) = List.elem (m ++ pfx ++ k) st.seen from rfl,
          List.elem_eq_mem] at hc
        simp [hmem] at hc
      constructor
      · simp only [List.map_append, List.map_cons, List.map_nil]
        rw [List.nodup_append]
        refine ⟨h1, List.nodup_singleton _, ?_⟩
        intro x hx hx1
        simp only [List.mem_singleton] at hx1
        subst hx1
        obtain ⟨c, hcmem, hceq⟩ := List.mem_map.mp hx
        exact hnotseen (hceq ▸ h2 c hcmem)
      · intro c hcm
        simp only [List.mem_append, List.mem_singleton] at hcm
        rcases hcm with hcm | hcm
        · exact List.mem_cons_of_mem _ (h2 c hcm)
        · subst hcm
          exact List.mem_cons_self _ _
    · exact ⟨h1, h2⟩

theorem processKeys_dedup (cfg : Config) (m pfx : String) (kv2 : Bool) :
    ∀ (keys : List String) (st : St),
    (st.cands.map Candidate.fullPath).Nodup →
    (∀ c ∈ st.cands, c.fullPath ∈ st.seen) →
    ((processKeys cfg m pfx kv2 keys st).cands.map Candidate.fullPath).Nodup ∧
    ∀ c ∈ (processKeys cfg m pfx kv2 keys st).cands,
      c.fullPath ∈ (processKeys cfg m pfx kv2 keys st).seen
  | [], st => fun h1 h2 => ⟨h1, h2⟩
  | k :: ks, st => fun h1 h2 => by
    have hk := processKey_dedup cfg m pfx kv2 st k h1 h2
    have := processKeys_dedup cfg m pfx kv2 ks (processKey cfg m pfx kv2 st k) hk.1 hk.2
    simpa only [processKeys, List.foldl_cons] using this


/-! ## The run invariant -/

/-- Invariant of every reachable state of a `universalSearch` run:
deduplication of candidates, agreement of `results` with the `"deep"`
stream, non-emptiness of result matches, and phase discipline. -/
structure Inv (st : St) : Prop where
  dedup : (st.cands.map Candidate.fullPath).Nodup
  candsSeen : ∀ c ∈ st.cands, c.fullPath ∈ st.seen
  resEq : st.results = deepRecs st.emitted
  resPos : ∀ r ∈ st.results, 0 < r.keyMatches.length + r.valueMatches.length
  callsA : st.phase = Phase.A → ∀ c ∈ st.calls, isListCall c = true
  callsSplit : ∃ l r, st.calls = l ++ r ∧ (∀ c ∈ l, isListCall c = true) ∧
    (∀ c ∈ r, isReadCall c = true)
  queueA : st.phase = Phase.A → st.readQueue = []
  resultsA : st.phase = Phase.A → st.results = []
  queueB : st.phase = Phase.B → ∃ k, st.readQueue = st.cands.drop k
  noListB : st.phase = Phase.B → ∀ ws ∈ st.workers, ∀ m p b, ws ≠ WStatus.listing m p b
  noReadA : st.phase = Phase.A → ∀ ws ∈ st.workers, ∀ c, ws ≠ WStatus.reading c
  readCands : ∀ c : Candidate, Call.read c ∈ st.calls → c ∈ st.cands

theorem inv_init (cfg : Config) (mounts : List (String × Bool)) (w : Nat) :
    Inv (initSt cfg mounts w) := by
  refine ⟨?_, ?_, ?_, ?_, ?_, ?_, ?_, ?_, ?_, ?_, ?_, ?_⟩ <;>
    simp [initSt, deepRecs]
  exact ⟨[], [], by simp, by simp, by simp⟩

theorem inv_step_abort (cfg : Config) (st st' : St)
    (hst : step cfg Action.abort st = some st') (h : Inv st) : Inv st' := by
  simp only [step] at hst
  injection hst with hst
  subst hst
  exact ⟨h.dedup, h.candsSeen, h.resEq, h.resPos, h.callsA, h.callsSplit, h.queueA,
    h.resultsA, h.queueB, h.noListB, h.noReadA, h.readCands⟩

theorem inv_step_finishA (cfg : Config) (st st' : St)
    (hst : step cfg Action.finishA st = some st') (h : Inv st) : Inv st' := by
  simp only [step] at hst
  split at hst
  · next hcond =>
    injection hst with hst
    subst hst
    refine ⟨h.dedup, h.candsSeen, h.resEq, h.resPos, ?_, h.callsSplit, ?_, ?_, ?_, ?_, ?_,
      h.readCands⟩
    · intro hA
      simp at hA
    · intro hA
      simp at hA
    · intro hA
      simp at hA
    · intro _
      exact ⟨0, by simp⟩
    · intro _ ws hws
      obtain ⟨_, _, hw⟩ := List.mem_map.mp hws
      intro m p b
      rw [← hw]
      simp
    · intro hA
      simp at hA
  · exact absurd hst (by simp)


theorem set_preserves (P : WStatus → Prop) (l : List WStatus) (w : Nat) (y : WStatus)
    (hl : ∀ x ∈ l, P x) (hy : P y) : ∀ x ∈ l.set w y, P x := by
  intro x hx
  rcases List.mem_or_eq_of_mem_set hx with hx | hx
  · exact hl x hx
  · exact hx ▸ hy

theorem inv_workers_update (st : St) (h : Inv st) (ws' : List WStatus)
    (hB : st.phase = Phase.B → ∀ x ∈ ws', ∀ m p b, x ≠ WStatus.listing m p b)
    (hA : st.phase = Phase.A → ∀ x ∈ ws', ∀ c, x ≠ WStatus.reading c) :
    Inv { st with workers := ws' } :=
  ⟨h.dedup, h.candsSeen, h.resEq, h.resPos, h.callsA, h.callsSplit, h.queueA, h.resultsA,
   h.queueB, hB, hA, h.readCands⟩

theorem phaseAB_absurd {α : Prop} (hh : Phase.A = Phase.B) : α := by simp at hh

theorem inv_step_claim (cfg : Config) (w : Nat) (st st' : St)
    (hst : step cfg (Action.claim w) st = some st') (h : Inv st) : Inv st' := by
  simp only [step] at hst
  split at hst
  · next hw =>
    cases hphase : st.phase with
    | A =>
      simp only [hphase] at hst
      split at hst
      · -- queue empty: worker exits
        injection hst with hst
        subst hst
        exact ⟨h.dedup, h.candsSeen, h.resEq, h.resPos, fun _ => h.callsA hphase,
          h.callsSplit, fun _ => h.queueA hphase, fun _ => h.resultsA hphase,
          fun hh => phaseAB_absurd hh,
          fun hh => phaseAB_absurd hh,
          fun _ => set_preserves _ _ _ _ (h.noReadA hphase) (by simp),
          h.readCands⟩
      · next mount pfx rest hq =>
        split at hst
        · -- aborted: worker exits, nothing else changes
          injection hst with hst
          subst hst
          exact ⟨h.dedup, h.candsSeen, h.resEq, h.resPos, fun _ => h.callsA hphase,
            h.callsSplit, fun _ => h.queueA hphase, fun _ => h.resultsA hphase,
            fun hh => phaseAB_absurd hh,
            fun hh => phaseAB_absurd hh,
            fun _ => set_preserves _ _ _ _ (h.noReadA hphase) (by simp),
            h.readCands⟩
        · split at hst
          · -- prefix filtered out: unit dropped
            injection hst with hst
            subst hst
            exact ⟨h.dedup, h.candsSeen, h.resEq, h.resPos, fun _ => h.callsA hphase,
              h.callsSplit, fun _ => h.queueA hphase, fun _ => h.resultsA hphase,
              fun hh => phaseAB_absurd hh,
              fun hh => phaseAB_absurd hh,
              fun _ => h.noReadA hphase,
              h.readCands⟩
          · -- issue the list call
            injection hst with hst
            subst hst
            refine ⟨h.dedup, h.candsSeen, h.resEq, h.resPos, ?_, ?_,
              fun _ => h.queueA hphase, fun _ => h.resultsA hphase,
              fun hh => phaseAB_absurd hh,
              fun hh => phaseAB_absurd hh,
              fun _ => set_preserves _ _ _ _ (h.noReadA hphase) (by simp), ?_⟩
            · intro _ c hc
              rcases List.mem_append.mp hc with hc | hc
              · exact h.callsA hphase c hc
              · rw [List.mem_singleton.mp hc]
                rfl
            · refine ⟨st.calls ++ [Call.list mount pfx ((st.kvMap.lookup mount).getD false)],
                [], by simp, ?_, by simp⟩
              intro c hc
              rcases List.mem_append.mp hc with hc | hc
              · exact h.callsA hphase c hc
              · rw [List.mem_singleton.mp hc]
                rfl
            · intro c hc
              rcases List.mem_append.mp hc with hc | hc
              · exact h.readCands c hc
              · exact absurd (List.mem_singleton.mp hc) (by simp)
    | B =>
      simp only [hphase] at hst
      split at hst
      · -- read queue empty: worker exits
        injection hst with hst
        subst hst
        exact ⟨h.dedup, h.candsSeen, h.resEq, h.resPos,
          fun hh => phaseAB_absurd hh.symm,
          h.callsSplit,
          fun hh => phaseAB_absurd hh.symm,
          fun hh => phaseAB_absurd hh.symm,
          fun _ => h.queueB hphase,
          fun _ => set_preserves _ _ _ _ (h.noListB hphase) (by simp),
          fun hh => phaseAB_absurd hh.symm,
          h.readCands⟩
      · next c rest hq =>
        split at hst
        · -- aborted: worker exits
          injection hst with hst
          subst hst
          exact ⟨h.dedup, h.candsSeen, h.resEq, h.resPos,
            fun hh => phaseAB_absurd hh.symm,
            h.callsSplit,
            fun hh => phaseAB_absurd hh.symm,
            fun hh => phaseAB_absurd hh.symm,
            fun _ => h.queueB hphase,
            fun _ => set_preserves _ _ _ _ (h.noListB hphase) (by simp),
            fun hh => phaseAB_absurd hh.symm,
            h.readCands⟩
        · -- issue the read call
          injection hst with hst
          subst hst
          obtain ⟨k, hk⟩ := h.queueB hphase
          rw [hq] at hk
          refine ⟨h.dedup, h.candsSeen, h.resEq, h.resPos,
            fun hh => phaseAB_absurd hh.symm, ?_,
            fun hh => phaseAB_absurd hh.symm,
            fun hh => phaseAB_absurd hh.symm,
            ?_,
            fun _ => set_preserves _ _ _ _ (h.noListB hphase) (by simp),
            fun hh => phaseAB_absurd hh.symm, ?_⟩
          · obtain ⟨l, r, heq, hl, hr⟩ := h.callsSplit
            refine ⟨l, r ++ [Call.read c], by rw [← List.append_assoc, ← heq], hl, ?_⟩
            intro x hx
            rcases List.mem_append.mp hx with hx | hx
            · exact hr x hx
            · rw [List.mem_singleton.mp hx]
              rfl
          · intro _
            refine ⟨k + 1, ?_⟩
            show rest = st.cands.drop (k + 1)
            rw [← List.tail_drop, ← hk]
            rfl
          · intro c' hc'
            rcases List.mem_append.mp hc' with hc' | hc'
            · exact h.readCands c' hc'
            · have hcc : c' = c := by simpa using List.mem_singleton.mp hc'
              rw [hcc]
              exact List.mem_of_mem_drop (hk ▸ List.mem_cons_self _ _)
  · exact absurd hst (by simp)


theorem inv_step_listDone (cfg : Config) (w : Nat) (resp : ListResp) (st st' : St)
    (hst : step cfg (Action.listDone w resp) st = some st') (h : Inv st) : Inv st' := by
  simp only [step] at hst
  split at hst
  · next mount pfx kv2 hw =>
    have hmem : WStatus.listing mount pfx kv2 ∈ st.workers := List.get?_mem hw
    have hphase : st.phase = Phase.A := by
      cases hph : st.phase with
      | A => rfl
      | B => exact absurd rfl (h.noListB hph _ hmem mount pfx kv2)
    split at hst
    · -- ok keys
      next keys =>
      injection hst with hst
      subst hst
      have frozen := processKeys_frozen cfg mount pfx kv2 keys
        { st with workers := st.workers.set w WStatus.idle }
      have hdd := processKeys_dedup cfg mount pfx kv2 keys
        { st with workers := st.workers.set w WStatus.idle } h.dedup h.candsSeen
      have hde := processKeys_emitted_deep cfg mount pfx kv2 keys
        { st with workers := st.workers.set w WStatus.idle }
      obtain ⟨t, hgrow⟩ := processKeys_cands_grow cfg mount pfx kv2 keys
        { st with workers := st.workers.set w WStatus.idle }
      refine ⟨hdd.1, hdd.2, ?_, ?_, ?_, ?_, ?_, ?_, ?_, ?_, ?_, ?_⟩
      · rw [frozen.1, hde]
        exact h.resEq
      · intro r hr
        rw [frozen.1] at hr
        exact h.resPos r hr
      · intro _ c hc
        rw [frozen.2.1] at hc
        exact h.callsA hphase c hc
      · obtain ⟨l, r, heq, hl, hr⟩ := h.callsSplit
        exact ⟨l, r, frozen.2.1.trans heq, hl, hr⟩
      · intro _
        rw [frozen.2.2.1]
        exact h.queueA hphase
      · intro _
        rw [frozen.1]
        exact h.resultsA hphase
      · intro hB
        rw [frozen.2.2.2.1] at hB
        exact phaseAB_absurd (hphase.symm.trans hB)
      · intro hB
        rw [frozen.2.2.2.1] at hB
        exact phaseAB_absurd (hphase.symm.trans hB)
      · intro _
        rw [frozen.2.2.2.2.1]
        exact set_preserves _ _ _ _ (h.noReadA hphase) (by simp)
      · intro c hc
        rw [frozen.2.1] at hc
        rw [hgrow]
        exact List.mem_append_left t (h.readCands c hc)
    · -- http404
      split at hst
      · injection hst with hst
        subst hst
        exact ⟨h.dedup, h.candsSeen, h.resEq, h.resPos, h.callsA, h.callsSplit, h.queueA,
            h.resultsA, h.queueB,
            fun hB => set_preserves (fun x => ∀ m p b, x ≠ WStatus.listing m p b) _ _
              WStatus.idle (h.noListB hB) (by simp),
            fun hA => set_preserves (fun x => ∀ c, x ≠ WStatus.reading c) _ _
              WStatus.idle (h.noReadA hA) (by simp),
            h.readCands⟩
      · injection hst with hst
        subst hst
        exact ⟨h.dedup, h.candsSeen, h.resEq, h.resPos, h.callsA, h.callsSplit, h.queueA,
            h.resultsA, h.queueB,
            fun hB => set_preserves (fun x => ∀ m p b, x ≠ WStatus.listing m p b) _ _
              WStatus.idle (h.noListB hB) (by simp),
            fun hA => set_preserves (fun x => ∀ c, x ≠ WStatus.reading c) _ _
              WStatus.idle (h.noReadA hA) (by simp),
            h.readCands⟩
    · -- http403
      injection hst with hst
      subst hst
      exact ⟨h.dedup, h.candsSeen, h.resEq, h.resPos, h.callsA, h.callsSplit, h.queueA,
          h.resultsA, h.queueB,
          fun hB => set_preserves (fun x => ∀ m p b, x ≠ WStatus.listing m p b) _ _
            WStatus.idle (h.noListB hB) (by simp),
          fun hA => set_preserves (fun x => ∀ c, x ≠ WStatus.reading c) _ _
            WStatus.idle (h.noReadA hA) (by simp),
          h.readCands⟩
    · -- netErr
      injection hst with hst
      subst hst
      exact ⟨h.dedup, h.candsSeen, h.resEq, h.resPos, h.callsA, h.callsSplit, h.queueA,
          h.resultsA, h.queueB,
          fun hB => set_preserves (fun x => ∀ m p b, x ≠ WStatus.listing m p b) _ _
            WStatus.idle (h.noListB hB) (by simp),
          fun hA => set_preserves (fun x => ∀ c, x ≠ WStatus.reading c) _ _
            WStatus.idle (h.noReadA hA) (by simp),
          h.readCands⟩
  · exact absurd hst (by simp)

theorem inv_step_readDone (cfg : Config) (w : Nat) (resp : ReadResp) (st st' : St)
    (hst : step cfg (Action.readDone w resp) st = some st') (h : Inv st) : Inv st' := by
  simp only [step] at hst
  split at hst
  · next c hw =>
    have hmem : WStatus.reading c ∈ st.workers := List.get?_mem hw
    have hphase : st.phase = Phase.B := by
      cases hph : st.phase with
      | B => rfl
      | A => exact absurd rfl (h.noReadA hph _ hmem c)
    injection hst with hst
    subst hst
    refine ⟨h.dedup, h.candsSeen, ?_, ?_,
      fun hA => phaseAB_absurd (hphase.symm.trans hA).symm,
      h.callsSplit,
      fun hA => phaseAB_absurd (hphase.symm.trans hA).symm,
      fun hA => phaseAB_absurd (hphase.symm.trans hA).symm,
      fun _ => h.queueB hphase,
      fun hB => set_preserves _ _ _ _ (h.noListB hB) (by simp),
      fun hA => phaseAB_absurd (hphase.symm.trans hA).symm,
      h.readCands⟩
    · show st.results ++ _ = deepRecs (st.emitted ++ _)
      rw [deepRecs_append, deepRecs_map_deep, h.resEq]
    · intro r hr
      rcases List.mem_append.mp hr with hr | hr
      · exact h.resPos r hr
      · revert hr
        split
        · next hg =>
          intro hr
          rw [List.mem_singleton.mp hr]
          simpa [mkSearchResult] using hg
        · intro hr
          exact absurd hr (by simp)
  · exact absurd hst (by simp)

theorem inv_step (cfg : Config) (a : Action) (st st' : St)
    (hst : step cfg a st = some st') (h : Inv st) : Inv st' := by
  cases a with
  | abort => exact inv_step_abort cfg st st' hst h
  | claim w => exact inv_step_claim cfg w st st' hst h
  | listDone w resp => exact inv_step_listDone cfg w resp st st' hst h
  | readDone w resp => exact inv_step_readDone cfg w resp st st' hst h
  | finishA => exact inv_step_finishA cfg st st' hst h

theorem inv_run (cfg : Config) :
    ∀ (acts : List Action) (st st' : St),
    runSearch cfg acts st = some st' → Inv st → Inv st'
  | [], st, st', hrun, hi => by
    injection hrun with hrun
    exact hrun ▸ hi
  | a :: as, st, st', hrun, hi => by
    have hbind : runSearch cfg (a :: as) st
        = (step cfg a st).bind (fun s1 => runSearch cfg as s1) := rfl
    rw [hbind] at hrun
    cases hs : step cfg a st with
    | none => rw [hs] at hrun; simp at hrun
    | some st1 =>
      rw [hs] at hrun
      exact inv_run cfg as st1 st' hrun (inv_step cfg a st st1 hs hi)

/-- Any state reached from the initial state of a search satisfies the
run invariant. -/
theorem inv_reachable (cfg : Config) (mounts : List (String × Bool)) (w : Nat)
    (acts : List Action) (st : St)
    (hrun : runSearch cfg acts (initSt cfg mounts w) = some st) : Inv st :=
  inv_run cfg acts (initSt cfg mounts w) st hrun (inv_init cfg mounts w)


/-! ## Concrete scenario (spec scenario 1: `secret/` v2 holding
`db-pass = {"password": "hunter2"}`, query `pass`/contains), used for
witnesses and counterexamples -/

/-- The query configuration of the concrete scenario. -/
def cfg0 : Config where
  rx := noRegex
  base := "https://vault.example.com"
  term := "pass"
  opts := ⟨"contains", 4/5, true⟩
  maxDepth := 10
  showAll := false
  mFilter := ""
  pFilter := ""

/-- One v2 mount `secret/`. -/
def mounts0 : List (String × Bool) := [("secret/", true)]

/-- The initial state with a single worker. -/
def st0 : St := initSt cfg0 mounts0 1

/-- The secret value at `secret/db-pass`. -/
def secretData : JSON := .obj (.cons "password" (.prim "hunter2") .nil)

/-- Schedule: the mount 404s the v2 list of its root prefix; the run
completes. -/
def actsC1 : List Action := [.claim 0, .listDone 0 .http404, .claim 0, .finishA, .claim 0]

/-- Schedule: Phase A finds `secret/db-pass`, Phase B claims it and the
abort flag is set while the read is in flight. -/
def actsPhB : List Action :=
  [.claim 0, .listDone 0 (.ok ["db-pass"]), .claim 0, .finishA, .claim 0, .abort]

/-- ... and then the in-flight read returns. -/
def actsFull : List Action := actsPhB ++ [.readDone 0 (.ok secretData)]

/-- The state after `actsPhB`. -/
def stMid : St := (runSearch cfg0 actsPhB st0).getD st0

/-- The state after `actsFull`. -/
def stFull : St := (runSearch cfg0 actsFull st0).getD st0

/-- The candidate Phase A found in the concrete scenario. -/
def candFull : Candidate := ⟨"secret/", true, "db-pass", "secret/db-pass"⟩

/-- The deep result the concrete scenario produces. -/
def recFull : SearchResult :=
  mkSearchResult cfg0 candFull secretData [⟨"password", JSON.prim "hunter2"⟩] []

/-! ## Claim C5 -/

/-- Claim C5: within a single search run no two PathCandidates appended
to the candidate stream share a `fullPath` (enforced by the global
seen-set), and hence the Phase-B queue never holds two entries with the
same `fullPath`. -/
theorem phaseA_dedup_invariant (cfg : Config) (mounts : List (String × Bool)) (w : Nat)
    (acts : List Action) (st : St)
    (hrun : runSearch cfg acts (initSt cfg mounts w) = some st) :
    (st.cands.map Candidate.fullPath).Nodup ∧
    (st.readQueue.map Candidate.fullPath).Nodup := by
  have h := inv_reachable cfg mounts w acts st hrun
  refine ⟨h.dedup, ?_⟩
  cases hph : st.phase with
  | A => rw [h.queueA hph]; exact List.nodup_nil
  | B =>
    obtain ⟨k, hk⟩ := h.queueB hph
    rw [hk]
    exact List.Nodup.sublist (List.Sublist.map _ (List.drop_sublist k st.cands)) h.dedup

/-- Witness for C5 on the concrete run. -/
theorem phaseA_dedup_invariant_witness :
    (stFull.cands.map Candidate.fullPath).Nodup ∧
    (stFull.readQueue.map Candidate.fullPath).Nodup :=
  phaseA_dedup_invariant cfg0 mounts0 1 actsFull stFull rfl

/-! ## Claim C10 -/

/-- Claim C10: the result list `universalSearch` returns is exactly the
sequence of records handed to the `onYield` callback with type `"deep"`,
in the same order and with identical contents - a polling consumer and a
push consumer observe the same deep-result set. -/
theorem results_eq_deep_stream (cfg : Config) (mounts : List (String × Bool)) (w : Nat)
    (acts : List Action) (st : St)
    (hrun : runSearch cfg acts (initSt cfg mounts w) = some st) :
    st.results = deepRecs st.emitted :=
  (inv_reachable cfg mounts w acts st hrun).resEq

/-- Witness for C10 on the concrete run. -/
theorem results_eq_deep_stream_witness : stFull.results = deepRecs stFull.emitted :=
  results_eq_deep_stream cfg0 mounts0 1 actsFull stFull rfl

/-! ## Claim C4 -/

/-- The results (zero or one) a read-completion step appends for
candidate `c` given response `resp`. -/
def stepResults (cfg : Config) (c : Candidate) (resp : ReadResp) : List SearchResult :=
  let data := readRespData resp
  let mv := traverseForMatches cfg.rx cfg.term cfg.opts cfg.maxDepth data "" 0
  if 0 < mv.1.length + mv.2.length then [mkSearchResult cfg c data mv.1 mv.2] else []

/-- Claim C4: every element of the final deep result set satisfies
`keyMatches.length + valueMatches.length > 0`, and completing a
candidate's read appends (and emits) exactly one SearchResult iff the
traversal of the data found at least one key or value match, and nothing
otherwise. -/
theorem deep_result_iff_matches :
    (∀ (cfg : Config) (mounts : List (String × Bool)) (w : Nat) (acts : List Action) (st : St),
      runSearch cfg acts (initSt cfg mounts w) = some st →
      ∀ r ∈ st.results, 0 < r.keyMatches.length + r.valueMatches.length) ∧
    (∀ (cfg : Config) (st : St) (w : Nat) (c : Candidate) (resp : ReadResp),
      st.workers.get? w = some (WStatus.reading c) →
      step cfg (Action.readDone w resp) st =
        some { st with workers := st.workers.set w WStatus.idle,
                       results := st.results ++ stepResults cfg c resp,
                       emitted := st.emitted ++ (stepResults cfg c resp).map Event.deep }) := by
  constructor
  · intro cfg mounts w acts st hrun
    exact (inv_reachable cfg mounts w acts st hrun).resPos
  · intro cfg st w c resp hw
    simp only [step, stepResults]
    rw [hw]

/-- Witness for C4: the concrete scenario's result has a key match, and
the concrete read-completion step appends exactly it. -/
theorem deep_result_iff_matches_witness :
    (0 < recFull.keyMatches.length + recFull.valueMatches.length) ∧
    (step cfg0 (Action.readDone 0 (ReadResp.ok secretData)) stMid =
      some { stMid with workers := stMid.workers.set 0 WStatus.idle,
                        results := stMid.results ++ stepResults cfg0 candFull (ReadResp.ok secretData),
                        emitted := stMid.emitted ++
                          (stepResults cfg0 candFull (ReadResp.ok secretData)).map Event.deep }) :=
  ⟨deep_result_iff_matches.1 cfg0 mounts0 1 actsFull stFull rfl recFull (by decide),
   deep_result_iff_matches.2 cfg0 stMid 0 candFull (ReadResp.ok secretData) (by decide)⟩

/-! ## Claim C7 -/

/-- Claim C7: Phase B's work queue is the full ordered list of
PathCandidates collected by Phase A, snapshotted by the phase transition
which fires only when every Phase-A worker has returned, and consumed in
order; while path enumeration runs (phase A) no secret read has been
issued, and in every run all read calls come after all list calls. -/
theorem phase_separation :
    (∀ (cfg : Config) (mounts : List (String × Bool)) (w : Nat) (acts : List Action) (st : St),
      runSearch cfg acts (initSt cfg mounts w) = some st →
      (∃ l r, st.calls = l ++ r ∧ (∀ c ∈ l, isListCall c = true) ∧
        (∀ c ∈ r, isReadCall c = true)) ∧
      (st.phase = Phase.A → st.readQueue = [] ∧ ∀ c ∈ st.calls, isListCall c = true) ∧
      (st.phase = Phase.B → ∃ k, st.readQueue = st.cands.drop k) ∧
      (∀ c : Candidate, Call.read c ∈ st.calls → c ∈ st.cands)) ∧
    (∀ (cfg : Config) (st st' : St), step cfg Action.finishA st = some st' →
      st'.readQueue = st'.cands ∧ st'.cands = st.cands ∧ ∀ ws ∈ st.workers, ws = WStatus.done) := by
  constructor
  · intro cfg mounts w acts st hrun
    have h := inv_reachable cfg mounts w acts st hrun
    exact ⟨h.callsSplit, fun hA => ⟨h.queueA hA, h.callsA hA⟩, h.queueB, h.readCands⟩
  · intro cfg st st' hst
    simp only [step] at hst
    split at hst
    · next hcond =>
      injection hst with hst
      subst hst
      exact ⟨rfl, rfl, hcond.2⟩
    · exact absurd hst (by simp)

/-- The state in which Phase A of the concrete run has drained. -/
def stDrained : St :=
  (runSearch cfg0 [Action.claim 0, Action.listDone 0 (ListResp.ok ["db-pass"]), Action.claim 0] st0).getD st0

/-- The state right after the phase transition of the concrete run. -/
def stSnap : St := (step cfg0 Action.finishA stDrained).getD st0

/-- Witness for C7 on the concrete run. -/
theorem phase_separation_witness :
    (∃ l r, stFull.calls = l ++ r ∧ (∀ c ∈ l, isListCall c = true) ∧
      (∀ c ∈ r, isReadCall c = true)) ∧
    (stSnap.readQueue = stSnap.cands ∧ stSnap.cands = stDrained.cands ∧
      ∀ ws ∈ stDrained.workers, ws = WStatus.done) :=
  ⟨(phase_separation.1 cfg0 mounts0 1 actsFull stFull rfl).1,
   phase_separation.2 cfg0 stDrained stSnap rfl⟩


/-! ## Claim C1 (corrected: the 404'd prefix is NOT retried) -/

/-- Counterexample to C1 as stated: a complete run in which the sole
mount (assumed v2) 404s on the list of its root prefix issues exactly
ONE list call - the v2 one - and never lists that prefix with v1
endpoints; the cached version does flip to v1 and the search completes
with the subtree dropped. -/
theorem list404_no_retry_cx :
    (runSearch cfg0 actsC1 st0).map
        (fun st => (st.calls, st.kvMap, st.phase, st.workers, st.listQueue, st.cands)) =
      some ([Call.list "secret/" "" true], [("secret/", false)], Phase.B,
        [WStatus.done], [], []) ∧
    Call.list "secret/" "" false ∉ [Call.list "secret/" "" true] :=
  ⟨rfl, by decide⟩

/-- Claim C1 (amended): a 404 on a list call against a mount assumed v2
is treated as a version-mismatch signal rather than an error: the worker
continues, the mount's cached version flips to v1, and subsequent
prefixes under that mount are listed with v1 endpoints without
re-probing - but the 404'd prefix itself is NOT retried: the flip step
leaves the work queue, the candidates, the stream and the call log
unchanged, so that prefix's keys are treated as empty. -/
theorem list404_flips_version :
    (∀ (cfg : Config) (st : St) (w : Nat) (m p : String),
      st.workers.get? w = some (WStatus.listing m p true) →
      step cfg (Action.listDone w ListResp.http404) st =
        some { st with workers := st.workers.set w WStatus.idle,
                       kvMap := mapSet st.kvMap m false }) ∧
    (∀ (cfg : Config) (st : St) (w : Nat) (m p : String) (rest : List (String × String)),
      st.workers.get? w = some WStatus.idle → st.phase = Phase.A → st.aborted = false →
      st.listQueue = (m, p) :: rest → prefixAllowed cfg p = true →
      st.kvMap.lookup m = some false →
      step cfg (Action.claim w) st =
        some { st with listQueue := rest,
                       workers := st.workers.set w (WStatus.listing m p false),
                       calls := st.calls ++ [Call.list m p false] }) := by
  constructor
  · intro cfg st w m p hw
    simp only [step]
    rw [hw]
    rfl
  · intro cfg st w m p rest hw hph hab hq hpa hlk
    simp only [step]
    rw [hw, hph, hq, hab]
    simp [hpa, hlk]

/-- The state of the concrete run while the v2 list call is in flight. -/
def stListing : St := (runSearch cfg0 [Action.claim 0] st0).getD st0

/-- A scenario whose cached version for its mount is already v1. -/
def stV1 : St := initSt cfg0 [("kv1/", false)] 1

/-- Witness for the amended C1: the concrete 404 flip step, and a claim
step that uses the cached v1 version for its list call. -/
theorem list404_flips_version_witness :
    (step cfg0 (Action.listDone 0 ListResp.http404) stListing =
      some { stListing with workers := stListing.workers.set 0 WStatus.idle,
                            kvMap := mapSet stListing.kvMap "secret/" false }) ∧
    (step cfg0 (Action.claim 0) stV1 =
      some { stV1 with listQueue := [],
                       workers := stV1.workers.set 0 (WStatus.listing "kv1/" "" false),
                       calls := stV1.calls ++ [Call.list "kv1/" "" false] }) :=
  ⟨list404_flips_version.1 cfg0 stListing 0 "secret/" "" (by decide),
   list404_flips_version.2 cfg0 stV1 0 "kv1/" "" [] (by decide) rfl rfl (by decide)
     (by decide) (by decide)⟩

/-! ## Claim C2 (corrected: an in-flight call's result is appended, not
discarded) -/

/-- Counterexample to C2 as stated: in the concrete run the abort flag is
set while the read of `secret/db-pass` is in flight (zero deep results at
that point); when the call returns, its result IS appended - the deep
result count rises to one strictly after cancellation. -/
theorem cancellation_discard_cx :
    (runSearch cfg0 actsPhB st0).map (fun st => (st.aborted, st.results.length))
      = some (true, 0) ∧
    (runSearch cfg0 actsFull st0).map (fun st => (st.aborted, st.results.length))
      = some (true, 1) :=
  ⟨by decide, by decide⟩

/-- Claim C2 (amended): cancellation is cooperative - every worker checks
the flag at the top of its loop iteration: once the flag is set, no step
issues a new network call, and a claiming worker exits immediately with
nothing appended; a network call already in flight when the flag was set
has its qualifying result APPENDED on return (exhibited by the
counterexample), and once every worker has exited nothing is ever
appended to the candidate or result streams again. -/
theorem cancellation_cooperative :
    (∀ (cfg : Config) (a : Action) (st st' : St), st.aborted = true →
      step cfg a st = some st' → st'.calls = st.calls) ∧
    (∀ (cfg : Config) (w : Nat) (st st' : St), st.aborted = true →
      step cfg (Action.claim w) st = some st' →
      st'.workers = st.workers.set w WStatus.done ∧ st'.cands = st.cands ∧
      st'.results = st.results ∧ st'.emitted = st.emitted ∧
      st'.listQueue = st.listQueue ∧ st'.readQueue = st.readQueue) ∧
    (∀ (cfg : Config) (a : Action) (st st' : St), (∀ ws ∈ st.workers, ws = WStatus.done) →
      step cfg a st = some st' →
      st'.results = st.results ∧ st'.cands = st.cands ∧ st'.emitted = st.emitted) := by
  refine ⟨?_, ?_, ?_⟩
  · intro cfg a st st' hab hst
    cases a with
    | abort =>
      simp only [step] at hst
      injection hst with hst
      subst hst
      rfl
    | finishA =>
      simp only [step] at hst
      split at hst
      · injection hst with hst
        subst hst
        rfl
      · exact absurd hst (by simp)
    | claim w =>
      simp only [step] at hst
      split at hst
      · split at hst
        · split at hst
          · injection hst with hst
            subst hst
            rfl
          · split at hst
            · injection hst with hst
              subst hst
              rfl
            · exact absurd hab ‹¬ st.aborted = true›
        · split at hst
          · injection hst with hst
            subst hst
            rfl
          · split at hst
            · injection hst with hst
              subst hst
              rfl
            · exact absurd hab ‹¬ st.aborted = true›
      · exact absurd hst (by simp)
    | listDone w resp =>
      simp only [step] at hst
      split at hst
      · split at hst
        · next keys =>
          injection hst with hst
          subst hst
          exact (processKeys_frozen _ _ _ _ keys _).2.1
        · split at hst
          · injection hst with hst
            subst hst
            rfl
          · injection hst with hst
            subst hst
            rfl
        · injection hst with hst
          subst hst
          rfl
        · injection hst with hst
          subst hst
          rfl
      · exact absurd hst (by simp)
    | readDone w resp =>
      simp only [step] at hst
      split at hst
      · injection hst with hst
        subst hst
        rfl
      · exact absurd hst (by simp)
  · intro cfg w st st' hab hst
    simp only [step] at hst
    split at hst
    · split at hst
      · split at hst
        · injection hst with hst
          subst hst
          exact ⟨rfl, rfl, rfl, rfl, rfl, rfl⟩
        · split at hst
          · injection hst with hst
            subst hst
            exact ⟨rfl, rfl, rfl, rfl, rfl, rfl⟩
          · exact absurd hab ‹¬ st.aborted = true›
      · split at hst
        · injection hst with hst
          subst hst
          exact ⟨rfl, rfl, rfl, rfl, rfl, rfl⟩
        · split at hst
          · injection hst with hst
            subst hst
            exact ⟨rfl, rfl, rfl, rfl, rfl, rfl⟩
          · exact absurd hab ‹¬ st.aborted = true›
    · exact absurd hst (by simp)
  · intro cfg a st st' hall hst
    cases a with
    | abort =>
      simp only [step] at hst
      injection hst with hst
      subst hst
      exact ⟨rfl, rfl, rfl⟩
    | finishA =>
      simp only [step] at hst
      split at hst
      · injection hst with hst
        subst hst
        exact ⟨rfl, rfl, rfl⟩
      · exact absurd hst (by simp)
    | claim w =>
      simp only [step] at hst
      split at hst
      · next hw =>
        have := hall _ (List.get?_mem hw)
        simp at this
      · exact absurd hst (by simp)
    | listDone w resp =>
      simp only [step] at hst
      split at hst
      · next m p b hw =>
        have := hall _ (List.get?_mem hw)
        simp at this
      · exact absurd hst (by simp)
    | readDone w resp =>
      simp only [step] at hst
      split at hst
      · next c hw =>
        have := hall _ (List.get?_mem hw)
        simp at this
      · exact absurd hst (by simp)

/-- An aborted state whose single worker is idle at its loop top. -/
def stAb : St :=
  (runSearch cfg0 [Action.claim 0, Action.listDone 0 (ListResp.ok ["db-pass"]), Action.abort] st0).getD st0

/-- ... and the state after that worker's next loop check. -/
def stAbAfter : St := (step cfg0 (Action.claim 0) stAb).getD st0

/-- The terminal state of the concrete run (every worker has exited). -/
def stDone : St := (runSearch cfg0 (actsFull ++ [Action.claim 0]) st0).getD st0

/-- ... with one further environment step. -/
def stDoneAfter : St := (step cfg0 Action.abort stDone).getD st0

/-- Witness for the amended C2 at concrete states: an aborted in-flight
read appends no new call, a claiming worker under the flag exits with
nothing appended, and after full exit nothing changes. -/
theorem cancellation_cooperative_witness :
    (stFull.calls = stMid.calls) ∧
    (stAbAfter.workers = stAb.workers.set 0 WStatus.done ∧ stAbAfter.cands = stAb.cands ∧
      stAbAfter.results = stAb.results ∧ stAbAfter.emitted = stAb.emitted ∧
      stAbAfter.listQueue = stAb.listQueue ∧ stAbAfter.readQueue = stAb.readQueue) ∧
    (stDoneAfter.results = stDone.results ∧ stDoneAfter.cands = stDone.cands ∧
      stDoneAfter.emitted = stDone.emitted) :=
  ⟨cancellation_cooperative.1 cfg0 (Action.readDone 0 (ReadResp.ok secretData)) stMid stFull
      (by decide) rfl,
   cancellation_cooperative.2.1 cfg0 0 stAb stAbAfter (by decide) rfl,
   cancellation_cooperative.2.2 cfg0 Action.abort stDone stDoneAfter (by decide) rfl⟩

end VaultSearch
